import Mathlib

/-!
Verification of the generation-result parsing and repair pipeline of the
neuronix-autonomous-company repository.

Strings of the TypeScript source are modelled as `List Char`.  Each
definition below is a shallow embedding of one function of
`src/agents/DevAgent.ts` or of the PM agent (`PMAgent`), translated
statement by statement from the source.  JavaScript regular-expression
replacement and testing are unfolded into explicit character scans whose
greedy/lazy behaviour is deterministic for the concrete patterns used by
the source (each quantified class is followed by a character excluded
from the class, so the match at a position is unique).
-/

/-- JavaScript whitespace (the set used by `String.prototype.trim` and by
the `\s` regex class, restricted to the code points the pipeline can
meet; both sets agree on these). -/
def isJsWsChar (c : Char) : Bool :=
  c = ' ' || c = '\t' || c = '\n' || c = '\r' ||
  c = '\x0b' || c = '\x0c' || c.toNat == 0xa0 || c.toNat == 0xfeff ||
  c.toNat == 0x2028 || c.toNat == 0x2029

/-- Model of JavaScript `String.prototype.trim`. -/
def jsTrim (s : List Char) : List Char :=
  ((s.dropWhile isJsWsChar).reverse.dropWhile isJsWsChar).reverse

/-- `startsWithL needle hay` models `hay.startsWith(needle)`. -/
def startsWithL : List Char → List Char → Bool
  | [], _ => true
  | _ :: _, [] => false
  | a :: as, b :: bs => a == b && startsWithL as bs

/-- `endsWithL suffix hay` models `hay.endsWith(suffix)`. -/
def endsWithL (suffix hay : List Char) : Bool :=
  startsWithL suffix.reverse hay.reverse

/-- `containsSub needle hay` models `hay.includes(needle)`. -/
def containsSub (needle : List Char) : List Char → Bool
  | [] => needle.isEmpty
  | s@(_ :: t) => startsWithL needle s || containsSub needle t

/-- `memB x l` models membership of string `x` in a list/`Set` of strings. -/
def memB (x : List Char) : List (List Char) → Bool
  | [] => false
  | y :: t => x == y || memB x t

/-- The apostrophe code point, compared numerically. -/
def isSQuote (c : Char) : Bool := c.toNat == 39

/-- First replacement of `DevAgent.normalizeJSON`
(`normalized.replace(/:\s*'([^']*)'/g, ...)` at DevAgent.ts:875): a colon,
greedy whitespace, a single-quoted run without apostrophes, replaced by a
colon, one space and the run in double quotes.  The scan advances one
character when no match starts at the current position and past the whole
match otherwise, exactly as a global JavaScript replace does.  The first
argument is fuel; `rsqAux (s.length + 1) s` always completes the scan. -/
def rsqAux : Nat → List Char → List Char
  | 0, s => s
  | _ + 1, [] => []
  | n + 1, c :: rest =>
    if c = ':' then
      let r1 := rest.dropWhile isJsWsChar
      match r1 with
      | q :: r2 =>
        if isSQuote q then
          let grp := r2.takeWhile (fun x => !(isSQuote x))
          match r2.drop grp.length with
          | q2 :: r4 =>
            if isSQuote q2 then
              ':' :: ' ' :: '"' :: (grp ++ '"' :: rsqAux n r4)
            else ':' :: rsqAux n rest
          | [] => ':' :: rsqAux n rest
        else ':' :: rsqAux n rest
      | [] => ':' :: rsqAux n rest
    else c :: rsqAux n rest

/-- The literal pattern `"content":` of the second replacement. -/
def contentPat : List Char := "\"content\":".data

/-- Character-wise escaping applied to a matched content value by
`normalizeJSON` (DevAgent.ts:884-889): the five chained `.replace` calls
compose to this single map because each later replace never touches the
backslashes introduced by an earlier one. -/
def escContentChar (c : Char) : List Char :=
  if c = '\\' then ['\\', '\\']
  else if c = '\n' then ['\\', 'n']
  else if c = '\r' then ['\\', 'r']
  else if c = '\t' then ['\\', 't']
  else if c = '"' then ['\\', '"']
  else [c]

/-- Second replacement of `DevAgent.normalizeJSON`
(`/"content":\s*"([\s\S]*?)"/g` at DevAgent.ts:880-892): after the literal
key, greedy whitespace, an opening quote, then the lazy group — everything
up to the first following double quote, escaped-quote-blind — and the
closing quote.  The replacement is `"content": "` + escaped group + `"`. -/
def rcAux : Nat → List Char → List Char
  | 0, s => s
  | _ + 1, [] => []
  | n + 1, s@(c :: rest) =>
    if startsWithL contentPat s then
      let after := s.drop contentPat.length
      let r1 := after.dropWhile isJsWsChar
      match r1 with
      | '"' :: r2 =>
        let grp := r2.takeWhile (fun x => !(x == '"'))
        match r2.drop grp.length with
        | '"' :: r4 =>
          contentPat ++ (' ' :: '"' :: ((grp.map escContentChar).flatten ++ '"' :: rcAux n r4))
        | _ => c :: rcAux n rest
      | _ => c :: rcAux n rest
    else c :: rcAux n rest

/-- `DevAgent.normalizeJSON` (DevAgent.ts:869-895): the single-quote
replacement followed by the content-value escaping replacement. -/
def normalizeJSON (s : List Char) : List Char :=
  let p1 := rsqAux (s.length + 1) s
  rcAux (p1.length + 1) p1

/-- A correctly escaped input: a `content` value holding an escaped
double quote (`a\"b`). -/
def normCex : List Char := "\x7b\"content\": \"a\\\"b\"\x7d".data

theorem startsWithL_mem_of_true :
    ∀ needle hay : List Char, startsWithL needle hay = true →
      ∀ a ∈ needle, a ∈ hay := by
  intro needle
  induction needle with
  | nil => intro hay _ a ha; cases ha
  | cons n ns ih =>
    intro hay h a ha
    cases hay with
    | nil => simp [startsWithL] at h
    | cons b bs =>
      simp only [startsWithL, Bool.and_eq_true, beq_iff_eq] at h
      rcases List.mem_cons.mp ha with ha' | ha'
      · rw [ha', h.1]; exact List.mem_cons_self _ _
      · exact List.mem_cons_of_mem _ (ih bs h.2 a ha')

theorem rsqAux_eq_self_of_no_colon :
    ∀ (n : Nat) (s : List Char), ':' ∉ s → rsqAux n s = s := by
  intro n
  induction n with
  | zero => intro s _; rfl
  | succ n ih =>
    intro s hs
    cases s with
    | nil => rfl
    | cons c rest =>
      have hc : ¬ c = ':' := by
        intro h; exact hs (h ▸ List.mem_cons_self _ _)
      have hr : ':' ∉ rest := fun h => hs (List.mem_cons_of_mem _ h)
      simp only [rsqAux, if_neg hc]
      rw [ih rest hr]

theorem colon_mem_contentPat : ':' ∈ contentPat := by decide

theorem rcAux_eq_self_of_no_colon :
    ∀ (n : Nat) (s : List Char), ':' ∉ s → rcAux n s = s := by
  intro n
  induction n with
  | zero => intro s _; rfl
  | succ n ih =>
    intro s hs
    cases s with
    | nil => rfl
    | cons c rest =>
      have hp : ¬ startsWithL contentPat (c :: rest) = true := by
        intro h
        exact hs (startsWithL_mem_of_true contentPat (c :: rest) h ':' colon_mem_contentPat)
      have hr : ':' ∉ rest := fun h => hs (List.mem_cons_of_mem _ h)
      simp only [rcAux, Bool.not_eq_true] at hp ⊢
      rw [if_neg (by simp [hp]), ih rest hr]

theorem normalizeJSON_eq_self_of_no_colon (s : List Char) (hs : ':' ∉ s) :
    normalizeJSON s = s := by
  unfold normalizeJSON
  rw [rsqAux_eq_self_of_no_colon _ s hs, rcAux_eq_self_of_no_colon _ s hs]

/-- Claim C1 counterexample: `normalizeJSON` is not idempotent and alters
already correctly escaped content — on a `content` value containing the
escaped quote `a\"b`, the lazy group of the content regex stops at the
escaped quote, so each application doubles the backslash. -/
theorem normalizeJSON_not_idempotent :
    normalizeJSON (normalizeJSON normCex) ≠ normalizeJSON normCex ∧
      normalizeJSON normCex ≠ normCex := by
  constructor <;> decide

/-- Claim C1 (amended): `normalizeJSON` is idempotent on every string
without a colon, which both of its rewrites leave unchanged; it is not
idempotent in general (see the counterexample). -/
theorem normalizeJSON_idem_of_no_colon (s : List Char) (hs : ':' ∉ s) :
    normalizeJSON (normalizeJSON s) = normalizeJSON s := by
  rw [normalizeJSON_eq_self_of_no_colon s hs, normalizeJSON_eq_self_of_no_colon s hs]

/-- Witness for the amended C1 theorem at the colon-free string `abc`. -/
theorem normalizeJSON_idem_witness :
    normalizeJSON (normalizeJSON "abc".data) = normalizeJSON "abc".data :=
  normalizeJSON_idem_of_no_colon "abc".data (by decide)

/-! ### JSON values and a model of `JSON.parse`

`Json` models the values `JSON.parse` can produce.  Numbers keep their
source lexeme: the pipeline never compares or computes with numeric
values, only tests presence and truthiness, for which the lexeme
suffices.  Object fields keep first-occurrence order with a later
duplicate key overwriting the earlier value in place, as in JavaScript. -/
inductive Json where
  | null : Json
  | bool : Bool → Json
  | num : List Char → Json
  | str : List Char → Json
  | arr : List Json → Json
  | obj : List (List Char × Json) → Json

/-- Property read `j[k]` on a parsed value: defined only on objects,
`undefined` (here `none`) otherwise. -/
def jsGet (j : Json) (k : List Char) : Option Json :=
  match j with
  | .obj fs =>
    match fs.find? (fun kv => kv.1 == k) with
    | some kv => some kv.2
    | none => none
  | _ => none

/-- Whether a JSON number lexeme denotes zero: every mantissa digit is 0. -/
def numIsZero (lex : List Char) : Bool :=
  (lex.takeWhile (fun c => !(c == 'e') && !(c == 'E'))).all
    (fun c => !c.isDigit || c == '0')

/-- JavaScript truthiness of a parsed JSON value. -/
def jsonTruthy : Json → Bool
  | .null => false
  | .bool b => b
  | .num lex => !(numIsZero lex)
  | .str s => !s.isEmpty
  | .arr _ => true
  | .obj _ => true

/-- Truthiness of a possibly-`undefined` property read. -/
def optTruthy : Option Json → Bool
  | none => false
  | some j => jsonTruthy j

/-- Hexadecimal digit value, for `\uXXXX` escapes. -/
def hexV (c : Char) : Option Nat :=
  if '0' ≤ c && c ≤ '9' then some (c.toNat - 48)
  else if 'a' ≤ c && c ≤ 'f' then some (c.toNat - 87)
  else if 'A' ≤ c && c ≤ 'F' then some (c.toNat - 55)
  else none

/-- Decimal digit test. -/
def isDigitC (c : Char) : Bool := '0' ≤ c && c ≤ '9'

/-- Parse a JSON string body after the opening quote.  Strict like
`JSON.parse`: an unescaped control character or a missing closing quote
fails.  Returns the decoded characters and the input after the closing
quote. -/
def pStrBody : Nat → List Char → Option (List Char × List Char)
  | 0, _ => none
  | n + 1, s =>
    match s with
    | [] => none
    | c :: r =>
      if c = '"' then some ([], r)
      else if c = '\\' then
        match r with
        | [] => none
        | e :: r2 =>
          if e = '"' then (pStrBody n r2).map (fun p => ('"' :: p.1, p.2))
          else if e = '\\' then (pStrBody n r2).map (fun p => ('\\' :: p.1, p.2))
          else if e = '/' then (pStrBody n r2).map (fun p => ('/' :: p.1, p.2))
          else if e = 'b' then (pStrBody n r2).map (fun p => ('\x08' :: p.1, p.2))
          else if e = 'f' then (pStrBody n r2).map (fun p => ('\x0c' :: p.1, p.2))
          else if e = 'n' then (pStrBody n r2).map (fun p => ('\n' :: p.1, p.2))
          else if e = 'r' then (pStrBody n r2).map (fun p => ('\r' :: p.1, p.2))
          else if e = 't' then (pStrBody n r2).map (fun p => ('\t' :: p.1, p.2))
          else if e = 'u' then
            match r2 with
            | h1 :: h2 :: h3 :: h4 :: r3 =>
              match hexV h1, hexV h2, hexV h3, hexV h4 with
              | some v1, some v2, some v3, some v4 =>
                (pStrBody n r3).map
                  (fun p => (Char.ofNat (((v1 * 16 + v2) * 16 + v3) * 16 + v4) :: p.1, p.2))
              | _, _, _, _ => none
            | _ => none
          else none
      else if c.toNat < 32 then none
      else (pStrBody n r).map (fun p => (c :: p.1, p.2))

/-- Parse a JSON number lexeme (strict grammar: no leading zeros, a
fraction or exponent needs at least one digit). -/
def pNum (s : List Char) : Option (List Char × List Char) :=
  let (sgn, s1) :=
    match s with
    | c :: r => if c = '-' then ([c], r) else (([] : List Char), s)
    | [] => (([] : List Char), s)
  match s1 with
  | [] => none
  | c :: r =>
    if !(isDigitC c) then none
    else
      let (intPart, afterInt) :=
        if c = '0' then ([c], r)
        else (c :: r.takeWhile isDigitC, r.dropWhile isDigitC)
      let (fracPart, afterFrac) :=
        match afterInt with
        | '.' :: r2 =>
          let ds := r2.takeWhile isDigitC
          if ds.isEmpty then (none, afterInt)
          else (some ('.' :: ds), r2.dropWhile isDigitC)
        | _ => (none, afterInt)
      match fracPart, afterFrac with
      | none, '.' :: _ => none
      | fp, rest =>
        let (expPart, afterExp) :=
          match rest with
          | e :: r3 =>
            if e = 'e' || e = 'E' then
              let (es, r4) :=
                match r3 with
                | pm :: r5 => if pm = '+' || pm = '-' then ([pm], r5) else (([] : List Char), r3)
                | [] => (([] : List Char), r3)
              let ds := r4.takeWhile isDigitC
              if ds.isEmpty then (none, rest)
              else (some (e :: (es ++ ds)), r4.dropWhile isDigitC)
            else (none, rest)
          | [] => (none, rest)
        match expPart, afterExp with
        | none, e :: _ =>
          if e = 'e' || e = 'E' then none
          else some (sgn ++ intPart ++ fp.getD [] ++ [], afterExp)
        | ep, rest2 => some (sgn ++ intPart ++ fp.getD [] ++ ep.getD [], rest2)

/-- Insert-or-replace of an object field, as JavaScript property
assignment: an existing key keeps its position, a new key is appended. -/
def setAssoc : List (List Char × Json) → List Char → Json → List (List Char × Json)
  | [], k, v => [(k, v)]
  | (k', v') :: t, k, v =>
    if k' == k then (k', v) :: t else (k', v') :: setAssoc t k v

mutual
/-- Parse one JSON value, whitespace-tolerant in front. -/
def pVal : Nat → List Char → Option (Json × List Char)
  | 0, _ => none
  | n + 1, s =>
    let s := s.dropWhile isJsWsChar
    match s with
    | [] => none
    | c :: r =>
      if c = '"' then (pStrBody n r).map (fun p => (Json.str p.1, p.2))
      else if c = '[' then pArr n (r.dropWhile isJsWsChar)
      else if c = '\x7b' then pObj n (r.dropWhile isJsWsChar)
      else if startsWithL "null".data s then some (Json.null, s.drop 4)
      else if startsWithL "true".data s then some (Json.bool true, s.drop 4)
      else if startsWithL "false".data s then some (Json.bool false, s.drop 5)
      else if c = '-' || isDigitC c then (pNum s).map (fun p => (Json.num p.1, p.2))
      else none

/-- Parse array elements after `[` and leading whitespace. -/
def pArr : Nat → List Char → Option (Json × List Char)
  | 0, _ => none
  | n + 1, s =>
    match s with
    | ']' :: r => some (Json.arr [], r)
    | _ =>
      match pVal n s with
      | none => none
      | some (j, rest) => pArrTail n [j] rest

/-- Parse `, value`* `]` after a first array element. -/
def pArrTail : Nat → List Json → List Char → Option (Json × List Char)
  | 0, _, _ => none
  | n + 1, acc, s =>
    match s.dropWhile isJsWsChar with
    | ']' :: r => some (Json.arr acc, r)
    | ',' :: r =>
      match pVal n r with
      | none => none
      | some (j, rest) => pArrTail n (acc ++ [j]) rest
    | _ => none

/-- Parse object members after `\x7b` and leading whitespace. -/
def pObj : Nat → List Char → Option (Json × List Char)
  | 0, _ => none
  | n + 1, s =>
    match s with
    | '\x7d' :: r => some (Json.obj [], r)
    | '"' :: r =>
      match pStrBody n r with
      | none => none
      | some (k, rest) =>
        match rest.dropWhile isJsWsChar with
        | ':' :: r2 =>
          match pVal n r2 with
          | none => none
          | some (v, rest2) => pObjTail n [(k, v)] rest2
        | _ => none
    | _ => none

/-- Parse `, "key": value`* `\x7d` after a first object member. -/
def pObjTail : Nat → List (List Char × Json) → List Char → Option (Json × List Char)
  | 0, _, _ => none
  | n + 1, acc, s =>
    match s.dropWhile isJsWsChar with
    | '\x7d' :: r => some (Json.obj acc, r)
    | ',' :: r =>
      match r.dropWhile isJsWsChar with
      | '"' :: r2 =>
        match pStrBody n r2 with
        | none => none
        | some (k, rest) =>
          match rest.dropWhile isJsWsChar with
          | ':' :: r3 =>
            match pVal n r3 with
            | none => none
            | some (v, rest2) => pObjTail n (setAssoc acc k v) rest2
          | _ => none
      | _ => none
    | _ => none
end

/-- Model of `JSON.parse`: parse one value and require only whitespace
after it. -/
def jsonParse (s : List Char) : Option Json :=
  match pVal (4 * s.length + 16) s with
  | some (j, rest) => if (rest.dropWhile isJsWsChar).isEmpty then some j else none
  | none => none

/-! ### Truncation repair (`DevAgent.tryFixTruncatedJSON`) -/

/-- Scan keeping the last position where the needle matches. -/
def lastIdxGo (needle : List Char) : List Char → Nat → Option Nat → Option Nat
  | [], _, best => best
  | s@(_ :: t), i, best =>
    lastIdxGo needle t (i + 1) (if startsWithL needle s then some i else best)

/-- `lastIndexOfSub needle hay` models `hay.lastIndexOf(needle)` for a
non-empty needle: the greatest start index of an occurrence, `none` when
there is none. -/
def lastIndexOfSub (needle : List Char) (hay : List Char) : Option Nat :=
  lastIdxGo needle hay 0 none

/-- `DevAgent.tryFixTruncatedJSON` (DevAgent.ts:832-864).  The body never
throws, so the `catch` returning `null` is unreachable and the model is
total.  `substring(0, -1)` on a missing `lastIndexOf` clamps to the empty
string, as in JavaScript. -/
def tryFixTruncatedJSON (jsonText : List Char) : List Char :=
  let fixed := jsTrim jsonText
  let fixed :=
    if endsWithL ['"'] fixed && !(endsWithL ['"', '\x7d'] fixed) then
      match lastIndexOfSub "\x7b\"path\"".data fixed with
      | some i => fixed.take i
      | none => []
    else fixed
  let fixed :=
    match lastIndexOfSub ['\x7d', ','] fixed with
    | some i => if 0 < i then fixed.take (i + 1) else fixed
    | none => fixed
  let fixed := if !(endsWithL [']'] fixed) then fixed ++ [']'] else fixed
  let fixed := if !(endsWithL ['\x7d'] fixed) then fixed ++ ['\x7d'] else fixed
  fixed

/-- A `\x7b"files":[...]\x7d` payload truncated midway through entry 2's
content value, whose truncated content happens to contain the two
characters `\x7d,`. -/
def truncCex : List Char :=
  "\x7b\"files\":[\x7b\"path\":\"a\",\"content\":\"A\"\x7d,\x7b\"path\":\"b\",\"content\":\"x\x7d,".data

/-- What the truncation repair of `truncCex` produces: the cut at the last
`\x7d,` lands inside entry 2's unterminated string literal. -/
def truncCexOut : List Char :=
  "\x7b\"files\":[\x7b\"path\":\"a\",\"content\":\"A\"\x7d,\x7b\"path\":\"b\",\"content\":\"x\x7d]\x7d".data

/-- The repair the claim requires for `truncCex`: exactly entry 1. -/
def truncCexGood : List Char :=
  "\x7b\"files\":[\x7b\"path\":\"a\",\"content\":\"A\"\x7d]\x7d".data

/-- Claim C2: on an entry whose truncated content contains `\x7d,`, the
repair cuts back to the last occurrence of those two characters — inside
the open string literal — and the forced closing brackets land inside that
string, so the result does not parse at all instead of being the
collection of entries `1..N-1`. -/
theorem tryFixTruncatedJSON_misfires :
    tryFixTruncatedJSON truncCex = truncCexOut ∧
      jsonParse truncCexOut = none ∧
      tryFixTruncatedJSON truncCex ≠ truncCexGood ∧
      jsonParse truncCexGood =
        some (Json.obj [("files".data,
          Json.arr [Json.obj [("path".data, Json.str "a".data),
                              ("content".data, Json.str "A".data)]])]) := by
  refine ⟨by decide, rfl, by decide, rfl⟩

/-! ### Response extraction (`DevAgent.parseResponse`) -/

/-- Truthiness of the `files` property of a parsed root value
(`parsed.files` in the source's guards). -/
def fieldTruthy (j : Json) (k : List Char) : Bool := optTruthy (jsGet j k)

/-- The key of the output-file collection. -/
def filesKey : List Char := "files".data

/-- The success guard shared by all extraction strategies
(`if (parsed && parsed.files)` in the source): the root and its `files`
property are both truthy. -/
def accept (j : Json) : Option Json :=
  if jsonTruthy j && fieldTruthy j filesKey then some j else none

/-- Match of the strategy-2 pattern `/\x7b\s*"files"\s*:\s*\[/` at the head
of the input. -/
def filesPatAt (s : List Char) : Bool :=
  match s with
  | '\x7b' :: r =>
    let r1 := r.dropWhile isJsWsChar
    if startsWithL "\"files\"".data r1 then
      match (r1.drop 7).dropWhile isJsWsChar with
      | ':' :: r2 =>
        match r2.dropWhile isJsWsChar with
        | '[' :: _ => true
        | _ => false
      | _ => false
    else false
  | _ => false

/-- `text.search(/\x7b\s*"files"\s*:\s*\[/)`: index of the first match. -/
def findFilesPat : List Char → Option Nat
  | [] => none
  | s@(_ :: t) =>
    if filesPatAt s then some 0
    else (findFilesPat t).map (· + 1)

/-- The character-by-character scan of strategy 2 (DevAgent.ts:435-463):
string-literal state, escape state and brace depth; returns `endPos` when
the depth returns to zero.  The depth is an `Int`, as in the source. -/
def scanEnd : Int → Bool → Bool → Nat → List Char → Option Nat
  | _, _, _, _, [] => none
  | bc, inStr, esc, pos, c :: r =>
    if esc then scanEnd bc inStr false (pos + 1) r
    else if c = '\\' then scanEnd bc inStr true (pos + 1) r
    else if c = '"' then scanEnd bc (!inStr) false (pos + 1) r
    else if inStr then scanEnd bc inStr false (pos + 1) r
    else if c = '\x7b' then scanEnd (bc + 1) inStr false (pos + 1) r
    else if c = '\x7d' then
      if bc - 1 = 0 then some (pos + 1)
      else scanEnd (bc - 1) inStr false (pos + 1) r
    else scanEnd bc inStr false (pos + 1) r

/-- Strategy 2 (DevAgent.ts:422-508): locate the `\x7b"files":[` pattern in
the normalized text, bracket-match to the closing brace, parse; on a parse
exception try the truncation repair.  A parse that succeeds with a falsy
`files` falls through without repair, as in the source. -/
def tryStrat2 (nt : List Char) : Option Json :=
  match findFilesPat nt with
  | none => none
  | some i =>
    let jsonText := nt.drop i
    match scanEnd 0 false false 0 jsonText with
    | some endPos =>
      let jt := jsonText.take endPos
      match jsonParse jt with
      | some j => accept j
      | none =>
        let fixed := tryFixTruncatedJSON jt
        if !fixed.isEmpty then (jsonParse fixed).bind accept else none
    | none =>
      let fixed := tryFixTruncatedJSON jsonText
      if !fixed.isEmpty then (jsonParse fixed).bind accept else none

/-- The code-fence delimiter. -/
def fencePat : List Char := "\x60\x60\x60".data

/-- `indexOfSub needle hay`: first start index of an occurrence. -/
def indexOfSub (needle : List Char) : List Char → Option Nat
  | [] => if needle.isEmpty then some 0 else none
  | s@(_ :: t) =>
    if startsWithL needle s then some 0
    else (indexOfSub needle t).map (· + 1)

/-- All code blocks of strategy 3
(`/\x60\x60\x60(?:json)?\s*([\s\S]*?)\s*\x60\x60\x60/g`,
DevAgent.ts:511-533): for each fenced block, the block body with the
optional `json` tag dropped; the body is trimmed by the caller, which
makes the exact split between the lazy group and the `\s*` borders
irrelevant.  Unclosed fences yield no block, as for the regex. -/
def fencedBlocks : Nat → List Char → List (List Char)
  | 0, _ => []
  | n + 1, s =>
    match indexOfSub fencePat s with
    | none => []
    | some i =>
      let afterOpen := s.drop (i + 3)
      let body0 :=
        if startsWithL "json".data afterOpen then afterOpen.drop 4 else afterOpen
      match indexOfSub fencePat body0 with
      | none => []
      | some k =>
        jsTrim (body0.take k) :: fencedBlocks n (body0.drop (k + 3))

/-- Strategy 3: return the first fenced block that starts with `\x7b`,
parses, and passes the success guard. -/
def tryStrat3From : List (List Char) → Option Json
  | [] => none
  | b :: t =>
    match (if startsWithL ['\x7b'] b then (jsonParse b).bind accept else none) with
    | some j => some j
    | none => tryStrat3From t

/-- Outcomes of the two final `throw new AgentError(...)` sites of
`parseResponse`. -/
inductive ExtractErr where
  | parseFail : ExtractErr
  | noValidJson : ExtractErr

/-- Strategy 4 (DevAgent.ts:535-568): strip everything before the first
`\x7b` (only when its index is positive, as in the source) and after the
last `\x7d` of the raw trimmed text, then parse. -/
def tryStrat4 (text : List Char) : Except ExtractErr Json :=
  let jt :=
    match indexOfSub ['\x7b'] text with
    | some i => if 0 < i then text.drop i else text
    | none => text
  let jt :=
    match lastIndexOfSub ['\x7d'] jt with
    | some i => jt.take (i + 1)
    | none => jt
  match jsonParse jt with
  | none => .error .parseFail
  | some j =>
    match accept j with
    | some j' => .ok j'
    | none => .error .noValidJson

/-- `DevAgent.parseResponse` from the trimmed response text on
(DevAgent.ts:398-568): the four extraction strategies in order, the first
success winning. -/
def parseResponse (raw : List Char) : Except ExtractErr Json :=
  let text := jsTrim raw
  match (jsonParse (normalizeJSON text)).bind accept with
  | some j => .ok j
  | none =>
    let nt := normalizeJSON text
    match tryStrat2 nt with
    | some j => .ok j
    | none =>
      match tryStrat3From (fencedBlocks (nt.length + 1) nt) with
      | some j => .ok j
      | none => tryStrat4 text

/-- Whether a parsed value is a sequence (`Array.isArray`). -/
def isSeq : Json → Bool
  | .arr _ => true
  | _ => false

theorem accept_fieldTruthy : ∀ x j : Json, accept x = some j →
    fieldTruthy j filesKey = true := by
  intro x j h
  unfold accept at h
  split at h
  · next hc =>
    injection h with h'
    rw [← h']
    exact ((Bool.and_eq_true _ _).mp hc).2
  · exact Option.noConfusion h

theorem bind_accept_fieldTruthy : ∀ (o : Option Json) (j : Json),
    o.bind accept = some j → fieldTruthy j filesKey = true := by
  intro o j h
  cases o with
  | none => exact Option.noConfusion h
  | some x => exact accept_fieldTruthy x j h

theorem tryStrat2_fieldTruthy : ∀ (nt : List Char) (j : Json),
    tryStrat2 nt = some j → fieldTruthy j filesKey = true := by
  intro nt j h
  rw [tryStrat2] at h
  cases hpat : findFilesPat nt with
  | none => rw [hpat] at h; exact Option.noConfusion h
  | some i =>
    rw [hpat] at h
    simp only [] at h
    cases hscan : scanEnd 0 false false 0 (nt.drop i) with
    | none =>
      rw [hscan] at h
      simp only [] at h
      cases hfix : (tryFixTruncatedJSON (nt.drop i)).isEmpty with
      | true => rw [hfix] at h; exact Option.noConfusion h
      | false => rw [hfix] at h; exact bind_accept_fieldTruthy _ _ h
    | some endPos =>
      rw [hscan] at h
      simp only [] at h
      cases hp : jsonParse ((nt.drop i).take endPos) with
      | some x => rw [hp] at h; exact accept_fieldTruthy _ _ h
      | none =>
        rw [hp] at h
        simp only [] at h
        cases hfix : (tryFixTruncatedJSON ((nt.drop i).take endPos)).isEmpty with
        | true => rw [hfix] at h; exact Option.noConfusion h
        | false => rw [hfix] at h; exact bind_accept_fieldTruthy _ _ h

theorem tryStrat3From_fieldTruthy : ∀ (l : List (List Char)) (j : Json),
    tryStrat3From l = some j → fieldTruthy j filesKey = true := by
  intro l
  induction l with
  | nil => intro j h; exact Option.noConfusion h
  | cons b t ih =>
    intro j h
    simp only [tryStrat3From] at h
    split at h
    · next x heq =>
      injection h with h'
      rw [← h']
      by_cases hb : startsWithL ['\x7b'] b = true
      · rw [if_pos hb] at heq
        exact bind_accept_fieldTruthy _ _ heq
      · rw [if_neg hb] at heq
        exact Option.noConfusion heq
    · exact ih j h

theorem tryStrat4_fieldTruthy : ∀ (t : List Char) (j : Json),
    tryStrat4 t = .ok j → fieldTruthy j filesKey = true := by
  intro t j h
  simp only [tryStrat4] at h
  repeat' split at h
  all_goals first
    | exact Except.noConfusion h
    | (next j' heq =>
        injection h with h'
        rw [← h']
        exact accept_fieldTruthy _ _ heq)

/-- Claim C3 (amended): every value `parseResponse` returns has a truthy
`files` property — a missing or falsy `files` is treated as failure by
every strategy; but the check is only truthiness, not `Array.isArray`,
so a truthy non-sequence `files` is returned (see the counterexample). -/
theorem parseResponse_files_truthy : ∀ (raw : List Char) (j : Json),
    parseResponse raw = .ok j → fieldTruthy j filesKey = true := by
  intro raw j h
  simp only [parseResponse] at h
  split at h
  · next heq =>
    injection h with h'
    rw [← h']
    exact bind_accept_fieldTruthy _ _ heq
  · split at h
    · next heq =>
      injection h with h'
      rw [← h']
      exact tryStrat2_fieldTruthy _ _ heq
    · split at h
      · next heq =>
        injection h with h'
        rw [← h']
        exact tryStrat3From_fieldTruthy _ _ heq
      · exact tryStrat4_fieldTruthy _ _ h

/-- A response whose root parses but whose `files` value is a string. -/
def filesStrCex : List Char := "\x7b\"files\": \"hello\"\x7d".data

/-- Claim C3 counterexample: a parsed root whose `files` value is a
non-sequence (the string `hello`) is returned by `parseResponse` as a
successful extraction — the source guards only test truthiness, not
`Array.isArray`. -/
theorem parseResponse_accepts_nonseq_files :
    parseResponse filesStrCex =
      .ok (Json.obj [("files".data, Json.str "hello".data)]) ∧
    (jsGet (Json.obj [("files".data, Json.str "hello".data)]) filesKey).map isSeq =
      some false :=
  ⟨rfl, rfl⟩

/-- Witness for the amended C3 theorem at the concrete response
`\x7b"files":[]\x7d`. -/
theorem parseResponse_files_truthy_witness :
    fieldTruthy (Json.obj [("files".data, Json.arr [])]) filesKey = true :=
  parseResponse_files_truthy "\x7b\"files\":[]\x7d".data _ rfl

/-! ### Output validation (`DevAgent.validateResult`, `validatePackageJson`) -/

/-- One generated output file (`GeneratedFile` in `types.ts`). -/
structure GeneratedFile where
  path : List Char
  content : List Char
deriving DecidableEq

/-- A planned file of a `DevelopmentPlan`. -/
structure PlanFile where
  path : List Char
  purpose : List Char
deriving DecidableEq

/-- The technology stack of a plan. -/
structure TechStack where
  framework : List Char
  language : List Char
  styling : List Char
deriving DecidableEq

/-- A `DevelopmentPlan` as consumed by `DevAgent`. -/
structure DevPlan where
  project_name : List Char
  stack : TechStack
  files : List PlanFile
  features : List (List Char)
deriving DecidableEq

/-- The validation failures `DevAgent` raises (each `ValidationError`
site of `validateResult`, `validatePackageJson` and `validatePlan`,
identified by its violated field and offending value). -/
inductive VErr where
  | emptyFiles : VErr
  | noPath : VErr
  | noContent : List Char → VErr
  | dupPath : List Char → VErr
  | placeholder : List Char → VErr
  | missingRequired : List Char → VErr
  | pkgMissing : VErr
  | nameMismatch : Option Json → VErr
  | missingScript : List Char → VErr
  | missingNext : VErr
  | missingReact : VErr
  | missingTs : VErr
  | pkgInvalid : VErr
  | planNoName : VErr
  | planNoStack : VErr
  | planNoFiles : VErr

/-- The placeholder markers of `DevAgent.hasPlaceholderCode`
(DevAgent.ts:637-645). -/
def placeholderMarkers : List (List Char) :=
  ["// TODO".data, "// FIXME".data, "// Add logic here".data,
   "// Implement".data, "/* TODO".data,
   "throw new Error(\"Not implemented\")".data,
   "console.log(\"TODO\")".data]

/-- `DevAgent.hasPlaceholderCode` (DevAgent.ts:636-650): case-insensitive
substring match of any marker. -/
def hasPlaceholderCode (content : List Char) : Bool :=
  placeholderMarkers.any
    (fun p => containsSub (p.map Char.toLower) (content.map Char.toLower))

/-- The per-entry loop of `DevAgent.validateResult` (DevAgent.ts:585-613):
for each file in order, non-empty path, non-empty content, a duplicate
check against the paths seen so far, then the placeholder scan. -/
def checkFilesLoop : List GeneratedFile → List (List Char) → Option VErr
  | [], _ => none
  | f :: rest, seen =>
    if f.path.isEmpty then some .noPath
    else if f.content.isEmpty then some (.noContent f.path)
    else if memB f.path seen then some (.dupPath f.path)
    else if hasPlaceholderCode f.content then some (.placeholder f.path)
    else checkFilesLoop rest (f.path :: seen)

/-- `DEFAULT_CONFIG.requiredFiles` (DevAgent.ts:22-30), in declaration
order. -/
def requiredFilesDefault : List (List Char) :=
  ["package.json".data, "tsconfig.json".data, "app/page.tsx".data,
   "app/layout.tsx".data, "app/api/ping/route.ts".data,
   "README.md".data, ".gitignore".data]

/-- First element of `required` missing from `paths`, mirroring the
`for (const requiredFile of requiredFiles)` loop. -/
def firstMissing (paths : List (List Char)) : List (List Char) → Option (List Char)
  | [] => none
  | req :: t => if memB req paths then firstMissing paths t else some req

/-- The path of the dependency manifest. -/
def pkgPath : List Char := "package.json".data

/-- Object keys used by the manifest checks. -/
def nameKey : List Char := "name".data
def scriptsKey : List Char := "scripts".data
def depsKey : List Char := "dependencies".data
def devDepsKey : List Char := "devDependencies".data

/-- The scripts `validatePackageJson` requires (DevAgent.ts:674). -/
def requiredScripts : List (List Char) :=
  ["dev".data, "build".data, "start".data, "lint".data]

/-- `packageJson.name !== plan.project_name` is false exactly when the
`name` property is the string `project_name` (strict equality between an
arbitrary value and a string). -/
def nameMatches (pj : Json) (name : List Char) : Bool :=
  match jsGet pj nameKey with
  | some (.str s) => s == name
  | _ => false

/-- First required script failing
`!packageJson.scripts || !packageJson.scripts[script]`. -/
def firstBadScript (pj : Json) : List (List Char) → Option (List Char)
  | [] => none
  | s :: t =>
    if !(optTruthy (jsGet pj scriptsKey)) ||
       !(optTruthy ((jsGet pj scriptsKey).bind (jsGet · s))) then some s
    else firstBadScript pj t

/-- `DevAgent.validatePackageJson` (DevAgent.ts:655-720).  A `JSON.parse`
exception is caught and reported as the distinct `pkgInvalid` violation;
a `ValidationError` thrown inside the `try` is rethrown unchanged. -/
def validatePackageJson (files : List GeneratedFile) (plan : DevPlan) : Except VErr Unit :=
  match files.find? (fun f => f.path == pkgPath) with
  | none => .error .pkgMissing
  | some f =>
    match jsonParse f.content with
    | none => .error .pkgInvalid
    | some pj =>
      if !(nameMatches pj plan.project_name) then
        .error (.nameMismatch (jsGet pj nameKey))
      else
        match firstBadScript pj requiredScripts with
        | some s => .error (.missingScript s)
        | none =>
          if !(optTruthy (jsGet pj depsKey)) ||
             !(optTruthy ((jsGet pj depsKey).bind (jsGet · "next".data))) then
            .error .missingNext
          else if !(optTruthy ((jsGet pj depsKey).bind (jsGet · "react".data))) ||
                  !(optTruthy ((jsGet pj depsKey).bind (jsGet · "react-dom".data))) then
            .error .missingReact
          else if !(optTruthy (jsGet pj devDepsKey)) ||
                  !(optTruthy ((jsGet pj devDepsKey).bind (jsGet · "typescript".data))) then
            .error .missingTs
          else .ok ()

/-- `DevAgent.validateResult` (DevAgent.ts:574-631): non-empty collection,
the per-entry loop, the required-file loop, then the manifest checks. -/
def validateResult (files : List GeneratedFile) (plan : DevPlan) : Except VErr Unit :=
  if files.isEmpty then .error .emptyFiles
  else
    match checkFilesLoop files [] with
    | some e => .error e
    | none =>
      match firstMissing (files.map (fun f => f.path)) requiredFilesDefault with
      | some r => .error (.missingRequired r)
      | none => validatePackageJson files plan

/-- The paths accumulated by the per-entry loop over `pre`, starting from
`seen` (the source's `filePaths` set). -/
def pushSeen : List GeneratedFile → List (List Char) → List (List Char)
  | [], s => s
  | f :: t, s => pushSeen t (f.path :: s)

/-- The entries of `pre` have pairwise distinct paths, also distinct from
`seen` — the condition under which the loop's duplicate check stays
silent on `pre`. -/
def cleanPaths : List GeneratedFile → List (List Char) → Bool
  | [], _ => true
  | f :: t, seen => !(memB f.path seen) && cleanPaths t (f.path :: seen)

theorem checkFilesLoop_append (pre : List GeneratedFile) :
    ∀ (rest : List GeneratedFile) (seen : List (List Char)),
      (∀ f ∈ pre, f.path.isEmpty = false ∧ f.content.isEmpty = false ∧
        hasPlaceholderCode f.content = false) →
      cleanPaths pre seen = true →
      checkFilesLoop (pre ++ rest) seen = checkFilesLoop rest (pushSeen pre seen) := by
  induction pre with
  | nil => intro rest seen _ _; rfl
  | cons f t ih =>
    intro rest seen hclean hnodup
    have hf := hclean f (List.mem_cons_self _ _)
    simp only [cleanPaths, Bool.and_eq_true, Bool.not_eq_true'] at hnodup
    simp only [List.cons_append, checkFilesLoop, pushSeen, hf.1, hf.2.1, hf.2.2,
      hnodup.1, Bool.false_eq_true, if_false]
    exact ih rest (f.path :: seen) (fun g hg => hclean g (List.mem_cons_of_mem _ hg))
      hnodup.2

theorem memB_pushSeen : ∀ (pre : List GeneratedFile) (seen : List (List Char))
    (p : List Char), memB p (pushSeen pre seen) =
      (memB p (pre.map (fun f => f.path)) || memB p seen) := by
  intro pre
  induction pre with
  | nil => intro seen p; simp [pushSeen, memB]
  | cons f t ih =>
    intro seen p
    simp only [pushSeen, List.map_cons, memB, ih (f.path :: seen) p]
    cases p == f.path <;> cases memB p (t.map (fun f => f.path)) <;>
      cases memB p seen <;> rfl

/-- Claim C4 (amended): rule 1 (non-empty collection) is global and rules
5-6 come last, but rules 2-4 run per entry in collection order; when the
entries before the first duplicate all have non-empty path and content,
pairwise distinct paths and no forbidden-pattern content, the
duplicate-path violation is the one raised — even if a later entry
matches a forbidden pattern. -/
theorem validateResult_dup_before_placeholder
    (pre post : List GeneratedFile) (fd : GeneratedFile) (plan : DevPlan)
    (hclean : ∀ f ∈ pre, f.path.isEmpty = false ∧ f.content.isEmpty = false ∧
      hasPlaceholderCode f.content = false)
    (hnodup : cleanPaths pre [] = true)
    (hp : fd.path.isEmpty = false) (hc : fd.content.isEmpty = false)
    (hdup : memB fd.path (pre.map (fun f => f.path)) = true) :
    validateResult (pre ++ fd :: post) plan = .error (.dupPath fd.path) := by
  have hne : (pre ++ fd :: post).isEmpty = false := by cases pre <;> rfl
  have hmem : memB fd.path (pushSeen pre []) = true := by
    rw [memB_pushSeen, hdup]; rfl
  have hloop : checkFilesLoop (pre ++ fd :: post) [] = some (.dupPath fd.path) := by
    rw [checkFilesLoop_append pre (fd :: post) [] hclean hnodup]
    simp only [checkFilesLoop, hp, hc, hmem, Bool.false_eq_true, if_false, if_true]
  simp only [validateResult, hne, Bool.false_eq_true, if_false, hloop]

/-- A plan used only to exercise validation at concrete inputs. -/
def demoPlan : DevPlan :=
  ⟨"demo".data, ⟨"Next.js 14".data, "TypeScript".data, "Tailwind CSS".data⟩,
    [⟨"app/page.tsx".data, "Main page".data⟩], []⟩

/-- A collection whose first entry matches a forbidden pattern and whose
second entry duplicates the first entry's path. -/
def c4Files : List GeneratedFile :=
  [⟨"a".data, "// TODO implement".data⟩, ⟨"a".data, "hello".data⟩]

/-- Claim C4 counterexample: this collection contains both a duplicate
path and a forbidden-pattern entry, yet the placeholder violation of the
earlier entry is raised, not the duplicate-path violation — the rules are
checked per entry, not as global phases. -/
theorem validateResult_placeholder_before_dup :
    validateResult c4Files demoPlan = .error (.placeholder "a".data) := rfl

/-- A clean one-entry prefix and a duplicating entry. -/
def c4Pre : List GeneratedFile := [⟨"a".data, "x".data⟩]
def c4Fd : GeneratedFile := ⟨"a".data, "y".data⟩

/-- Witness for the amended C4 theorem: with a clean prefix, the
duplicate is raised. -/
theorem validateResult_dup_witness :
    validateResult (c4Pre ++ c4Fd :: []) demoPlan = .error (.dupPath "a".data) :=
  validateResult_dup_before_placeholder c4Pre [] c4Fd demoPlan
    (by decide) (by decide) (by decide) (by decide) (by decide)

/-- Claim C9: whenever the `package.json` entry parses but its `name`
property is not the plan's `project_name`, `validatePackageJson` raises
the name-mismatch `ValidationError` (field `package.json.name`, carrying
the actual value), and `validateResult` never accepts the collection. -/
theorem validatePackageJson_name_mismatch
    (files : List GeneratedFile) (plan : DevPlan) (f : GeneratedFile) (pj : Json)
    (hf : files.find? (fun g => g.path == pkgPath) = some f)
    (hp : jsonParse f.content = some pj)
    (hn : nameMatches pj plan.project_name = false) :
    validatePackageJson files plan = .error (.nameMismatch (jsGet pj nameKey)) ∧
      ∀ u : Unit, validateResult files plan ≠ .ok u := by
  have h1 : validatePackageJson files plan = .error (.nameMismatch (jsGet pj nameKey)) := by
    simp only [validatePackageJson, hf, hp, hn, Bool.not_false, if_true]
  refine ⟨h1, ?_⟩
  intro u hok
  simp only [validateResult] at hok
  split at hok
  · exact Except.noConfusion hok
  · split at hok
    · exact Except.noConfusion hok
    · split at hok
      · exact Except.noConfusion hok
      · rw [h1] at hok; exact Except.noConfusion hok

/-- A collection whose manifest parses with the name `other-app`. -/
def c9Files : List GeneratedFile :=
  [⟨pkgPath, "\x7b\"name\":\"other-app\"\x7d".data⟩]

/-- A plan requiring the project name `my-app`. -/
def c9Plan : DevPlan :=
  ⟨"my-app".data, ⟨"Next.js 14".data, "TypeScript".data, "Tailwind CSS".data⟩,
    [⟨"app/page.tsx".data, "Main page".data⟩], []⟩

/-- The parsed manifest of `c9Files`. -/
def c9Pj : Json := Json.obj [(nameKey, Json.str "other-app".data)]

/-- Witness for C9 at the scenario of the spec: plan name `my-app`,
manifest name `other-app`. -/
theorem validatePackageJson_name_mismatch_witness :
    validatePackageJson c9Files c9Plan = .error (.nameMismatch (jsGet c9Pj nameKey)) :=
  (validatePackageJson_name_mismatch c9Files c9Plan
    ⟨pkgPath, "\x7b\"name\":\"other-app\"\x7d".data⟩ c9Pj rfl rfl rfl).1

/-! ### The generation retry loop (`DevAgent.generateCode`) -/

/-- The errors one generation attempt can surface to `generateCode`'s
`catch` (DevAgent.ts:291-315): a `ValidationError`, or an `AgentError`
whose `truncLike` flag records whether its `originalError` message
includes `Expected` — the source's `isTruncationError` test. -/
inductive GenErr where
  | vErr : VErr → GenErr
  | agent : (truncLike : Bool) → GenErr

/-- The retry condition
`(error instanceof ValidationError || isTruncationError)`. -/
def retryable : GenErr → Bool
  | .vErr _ => true
  | .agent truncLike => truncLike

/-- `const maxRetries = 2` (DevAgent.ts:252). -/
def maxRetries : Nat := 2

/-- `DevAgent.validatePlan` (DevAgent.ts:321-337). -/
def validatePlanDev (p : DevPlan) : Except VErr Unit :=
  if p.project_name.isEmpty then .error .planNoName
  else if p.stack.framework.isEmpty then .error .planNoStack
  else if p.files.isEmpty then .error .planNoFiles
  else .ok ()

/-- The recursive retry skeleton of `generateCode` (DevAgent.ts:263-315).
One attempt — `createMessageWithTimeout`, `parseResponse`,
`validateResult`, `autoFixCommonIssues` — is abstracted as
`attempt retryCount` since its first step is an external call; its
classified outcome drives the recursion.  Returns the final outcome and
the number of attempts performed.  The fuel argument is
`maxRetries + 1 - retryCount`, which the recursion maintains. -/
def genRunAux {α : Type} (attempt : Nat → Except GenErr α) :
    Nat → Nat → Except GenErr α × Nat
  | 0, rc => (attempt rc, 1)
  | n + 1, rc =>
    match attempt rc with
    | .ok r => (.ok r, 1)
    | .error e =>
      if retryable e && decide (rc < maxRetries) then
        let p := genRunAux attempt n (rc + 1)
        (p.1, p.2 + 1)
      else (.error e, 1)

/-- `DevAgent.generateCode` (DevAgent.ts:251-316): validate the plan,
then run the bounded retry recursion from `retryCount = 0`. -/
def generateCode {α : Type} (plan : DevPlan) (attempt : Nat → Except GenErr α) :
    Except GenErr α × Nat :=
  match validatePlanDev plan with
  | .error e => (.error (.vErr e), 0)
  | .ok () => genRunAux attempt (maxRetries + 1) 0

/-- Claim C5: with the budget of 2 extra retries, a plan whose every
attempt fails retryably makes exactly 3 attempts — the recursion on
`retryCount` terminates (`generateCode` is total by construction) — and
raises the error observed on the last attempt; a 4th attempt never
happens (the count is 3 whatever `attempt` returns from index 3 on). -/
theorem generateCode_retry_ceiling {α : Type} (plan : DevPlan)
    (attempt : Nat → Except GenErr α) (e0 e1 e2 : GenErr)
    (hplan : validatePlanDev plan = .ok ())
    (h0 : attempt 0 = .error e0) (r0 : retryable e0 = true)
    (h1 : attempt 1 = .error e1) (r1 : retryable e1 = true)
    (h2 : attempt 2 = .error e2) :
    generateCode plan attempt = (.error e2, 3) := by
  simp only [generateCode, hplan, maxRetries, genRunAux, h0, h1, h2, r0, r1,
    Bool.true_and, decide_eq_true_eq]
  norm_num

/-- A valid plan for the retry witness. -/
def c5Plan : DevPlan :=
  ⟨"demo-app".data, ⟨"Next.js 14".data, "TypeScript".data, "Tailwind CSS".data⟩,
    [⟨"app/page.tsx".data, "Main page".data⟩], []⟩

/-- Witness for C5: an attempt stream that always fails with a recoverable
truncation makes exactly 3 attempts and surfaces that error. -/
theorem generateCode_retry_ceiling_witness :
    generateCode (α := Unit) c5Plan (fun _ => .error (.agent true)) =
      (.error (.agent true), 3) :=
  generateCode_retry_ceiling c5Plan (fun _ => .error (.agent true))
    (.agent true) (.agent true) (.agent true) rfl rfl rfl rfl rfl rfl

/-! ### Planning validation (`PMAgent.validateResult`) -/

/-- The plan part of a `PMAgentResult`. -/
structure PMPlan where
  project_name : List Char
  stack : TechStack
  files : List PlanFile
deriving DecidableEq

/-- A `PMAgentResult`: the PRD text and the development plan. -/
structure PMResult where
  prd : List Char
  plan : PMPlan
deriving DecidableEq

/-- The validation failures `PMAgent.validateResult` raises. -/
inductive PMErr where
  | prdEmpty : PMErr
  | prdShort : PMErr
  | nameEmpty : PMErr
  | nameNotKebab : PMErr
  | stackBad : PMErr
  | tooFew : PMErr
  | tooMany : PMErr
  | missingRequired : List Char → PMErr
  | fileNoPath : PMErr
  | fileNoPurpose : PMErr
deriving DecidableEq

/-- Split on the hyphen, for the kebab-case test. -/
def splitDash : List Char → List (List Char)
  | [] => [[]]
  | c :: t =>
    if c = '-' then [] :: splitDash t
    else
      match splitDash t with
      | seg :: rest => (c :: seg) :: rest
      | [] => [[c]]

/-- A lowercase-alphanumeric character. -/
def isKebabChar (c : Char) : Bool :=
  ('a' ≤ c && c ≤ 'z') || ('0' ≤ c && c ≤ '9')

/-- The kebab-case test `/^[a-z0-9]+(-[a-z0-9]+)*$/` (part_000:236):
every hyphen-separated segment is a non-empty lowercase-alphanumeric
run. -/
def kebabCase (s : List Char) : Bool :=
  (splitDash s).all (fun seg => !seg.isEmpty && seg.all isKebabChar)

/-- The required plan files of `PMAgent.validateResult` (part_000:280),
in declaration order. -/
def pmRequired : List (List Char) :=
  ["package.json".data, "tsconfig.json".data, "app/page.tsx".data,
   "app/layout.tsx".data, "README.md".data, ".gitignore".data]

/-- First plan file with an empty path or purpose, mirroring the final
per-file loop (part_000:294-310). -/
def firstBadPlanFile : List PlanFile → Option PlanFile
  | [] => none
  | f :: t =>
    if f.path.isEmpty || f.purpose.isEmpty then some f else firstBadPlanFile t

/-- `PMAgent.validateResult` (part_000:211-313) with the configured file
count bounds (defaults 5 and 15): PRD presence and length, project name
presence and kebab-case, stack fields, file count bounds, the
required-file loop, then the per-file structure loop.  It has no
duplicate-path check. -/
def pmValidateResult (minF maxF : Nat) (r : PMResult) : Except PMErr Unit :=
  if r.prd.isEmpty then .error .prdEmpty
  else if r.prd.length < 50 then .error .prdShort
  else if r.plan.project_name.isEmpty then .error .nameEmpty
  else if !(kebabCase r.plan.project_name) then .error .nameNotKebab
  else if r.plan.stack.framework.isEmpty || r.plan.stack.language.isEmpty ||
          r.plan.stack.styling.isEmpty then .error .stackBad
  else if r.plan.files.length < minF then .error .tooFew
  else if maxF < r.plan.files.length then .error .tooMany
  else
    match firstMissing (r.plan.files.map (fun f => f.path)) pmRequired with
    | some p => .error (.missingRequired p)
    | none =>
      match firstBadPlanFile r.plan.files with
      | some f => if f.path.isEmpty then .error .fileNoPath else .error .fileNoPurpose
      | none => .ok ()

/-- Whether a list of paths contains a duplicate. -/
def pathsHaveDup : List (List Char) → Bool
  | [] => false
  | p :: t => memB p t || pathsHaveDup t

/-- A PRD text long enough for the length rule. -/
def demoPrd : List Char :=
  "A product requirements document with enough detail for validation.".data

/-- A plan that passes every PM validation rule while listing
`app/page.tsx` twice. -/
def c6Result : PMResult :=
  ⟨demoPrd,
    ⟨"demo-site".data,
      ⟨"Next.js 14".data, "TypeScript".data, "Tailwind CSS".data⟩,
      [⟨"package.json".data, "Dependencies".data⟩,
       ⟨"tsconfig.json".data, "TypeScript config".data⟩,
       ⟨"app/page.tsx".data, "Main page".data⟩,
       ⟨"app/layout.tsx".data, "Root layout".data⟩,
       ⟨"README.md".data, "Documentation".data⟩,
       ⟨".gitignore".data, "Git ignore rules".data⟩,
       ⟨"app/page.tsx".data, "Main page again".data⟩]⟩⟩

/-- Claim C6 counterexample: a plan with a duplicated path is accepted by
`PMAgent.validateResult` — the PM validation has no duplicate-path
check, so the Manifest no-duplicates invariant is not enforced. -/
theorem pmValidateResult_accepts_duplicate :
    pmValidateResult 5 15 c6Result = .ok () ∧
      pathsHaveDup (c6Result.plan.files.map (fun f => f.path)) = true :=
  ⟨rfl, rfl⟩

theorem memB_append_left (x : List Char) :
    ∀ (l l' : List (List Char)), memB x l = true → memB x (l ++ l') = true := by
  intro l
  induction l with
  | nil => intro l' h; exact absurd h (by simp [memB])
  | cons y t ih =>
    intro l' h
    simp only [memB, Bool.or_eq_true] at h ⊢
    rcases h with h | h
    · exact Or.inl h
    · exact Or.inr (ih l' h)

theorem firstMissing_none_iff (paths : List (List Char)) :
    ∀ reqs : List (List Char), firstMissing paths reqs = none ↔
      ∀ p ∈ reqs, memB p paths = true := by
  intro reqs
  induction reqs with
  | nil => simp [firstMissing]
  | cons req t ih =>
    simp only [firstMissing]
    by_cases h : memB req paths = true
    · rw [if_pos h, ih]
      constructor
      · intro hall p hp
        rcases List.mem_cons.mp hp with rfl | hp'
        · exact h
        · exact hall p hp'
      · intro hall p hp
        exact hall p (List.mem_cons_of_mem _ hp)
    · rw [if_neg h]
      constructor
      · intro hsome; exact absurd hsome (by simp)
      · intro hall
        exact absurd (hall req (List.mem_cons_self _ _)) h

theorem firstMissing_none_append (paths extra reqs : List (List Char))
    (h : firstMissing paths reqs = none) :
    firstMissing (paths ++ extra) reqs = none := by
  rw [firstMissing_none_iff] at h ⊢
  intro p hp
  exact memB_append_left p paths extra (h p hp)

theorem firstBadPlanFile_none_iff : ∀ l : List PlanFile,
    firstBadPlanFile l = none ↔
      ∀ f ∈ l, (f.path.isEmpty || f.purpose.isEmpty) = false := by
  intro l
  induction l with
  | nil => simp [firstBadPlanFile]
  | cons f t ih =>
    simp only [firstBadPlanFile]
    by_cases h : (f.path.isEmpty || f.purpose.isEmpty) = true
    · rw [if_pos h]
      constructor
      · intro hsome; exact absurd hsome (by simp)
      · intro hall
        exact absurd h (by simp [hall f (List.mem_cons_self _ _)])
    · rw [if_neg h, ih]
      constructor
      · intro hall g hg
        rcases List.mem_cons.mp hg with rfl | hg'
        · exact Bool.eq_false_iff.mpr h
        · exact hall g hg'
      · intro hall g hg
        exact hall g (List.mem_cons_of_mem _ hg)

theorem pmValidate_ok_unpack (minF maxF : Nat) (r : PMResult)
    (hok : pmValidateResult minF maxF r = .ok ()) :
    r.prd.isEmpty = false ∧ (¬ r.prd.length < 50) ∧
    r.plan.project_name.isEmpty = false ∧ kebabCase r.plan.project_name = true ∧
    (r.plan.stack.framework.isEmpty || r.plan.stack.language.isEmpty ||
       r.plan.stack.styling.isEmpty) = false ∧
    (¬ r.plan.files.length < minF) ∧ (¬ maxF < r.plan.files.length) ∧
    firstMissing (r.plan.files.map (fun f => f.path)) pmRequired = none ∧
    firstBadPlanFile r.plan.files = none := by
  simp only [pmValidateResult] at hok
  split at hok
  · exact Except.noConfusion hok
  next h1 =>
  split at hok
  · exact Except.noConfusion hok
  next h2 =>
  split at hok
  · exact Except.noConfusion hok
  next h3 =>
  split at hok
  · exact Except.noConfusion hok
  next h4 =>
  split at hok
  · exact Except.noConfusion hok
  next h5 =>
  split at hok
  · exact Except.noConfusion hok
  next h6 =>
  split at hok
  · exact Except.noConfusion hok
  next h7 =>
  have hfm : firstMissing (r.plan.files.map (fun f => f.path)) pmRequired = none := by
    cases hfm' : firstMissing (r.plan.files.map (fun f => f.path)) pmRequired with
    | none => rfl
    | some p => rw [hfm'] at hok; exact Except.noConfusion hok
  rw [hfm] at hok
  have hfb : firstBadPlanFile r.plan.files = none := by
    cases hfb' : firstBadPlanFile r.plan.files with
    | none => rfl
    | some f =>
      rw [hfb'] at hok
      by_cases hfp : f.path.isEmpty = true
      · simp only [hfp, if_true] at hok
        exact Except.noConfusion hok
      · simp only [if_neg hfp] at hok
        exact Except.noConfusion hok
  have h4' : kebabCase r.plan.project_name = true := by
    simp only [Bool.not_eq_true', Bool.not_eq_false] at h4
    exact h4
  exact ⟨Bool.eq_false_iff.mpr h1, h2, Bool.eq_false_iff.mpr h3, h4',
    Bool.eq_false_iff.mpr h5, h6, h7, hfm, hfb⟩

/-- Claim C6 (amended): PM validation does not enforce the no-duplicate
invariant — appending a copy of a file already in an accepted plan keeps
the plan accepted, as long as the file count stays within the maximum. -/
theorem pmValidateResult_ignores_duplicates (r : PMResult) (f : PlanFile)
    (hok : pmValidateResult 5 15 r = .ok ())
    (hmem : f ∈ r.plan.files)
    (hlen : r.plan.files.length < 15) :
    pmValidateResult 5 15
      ⟨r.prd, ⟨r.plan.project_name, r.plan.stack, r.plan.files ++ [f]⟩⟩ = .ok () := by
  obtain ⟨h1, h2, h3, h4, h5, h6, h7, hfm, hfb⟩ := pmValidate_ok_unpack 5 15 r hok
  have hfm' : firstMissing ((r.plan.files ++ [f]).map (fun g => g.path)) pmRequired
      = none := by
    rw [List.map_append]
    exact firstMissing_none_append _ _ _ hfm
  have hfb' : firstBadPlanFile (r.plan.files ++ [f]) = none := by
    rw [firstBadPlanFile_none_iff]
    intro g hg
    rcases List.mem_append.mp hg with hg' | hg'
    · exact (firstBadPlanFile_none_iff _).mp hfb g hg'
    · rw [List.mem_singleton.mp hg']
      exact (firstBadPlanFile_none_iff _).mp hfb f hmem
  simp only [pmValidateResult]
  rw [if_neg (by simp [h1]), if_neg h2, if_neg (by simp [h3]),
    if_neg (by simp [h4]), if_neg (by simp [h5]),
    if_neg (by simp [List.length_append]; omega),
    if_neg (by simp [List.length_append]; omega), hfm', hfb']

/-- The six required files, each with a purpose. -/
def c6Base : PMResult :=
  ⟨demoPrd,
    ⟨"demo-site".data,
      ⟨"Next.js 14".data, "TypeScript".data, "Tailwind CSS".data⟩,
      [⟨"package.json".data, "Dependencies".data⟩,
       ⟨"tsconfig.json".data, "TypeScript config".data⟩,
       ⟨"app/page.tsx".data, "Main page".data⟩,
       ⟨"app/layout.tsx".data, "Root layout".data⟩,
       ⟨"README.md".data, "Documentation".data⟩,
       ⟨".gitignore".data, "Git ignore rules".data⟩]⟩⟩

/-- Witness for the amended C6 theorem: duplicating `app/page.tsx` in an
accepted six-file plan keeps it accepted. -/
theorem pmValidateResult_ignores_duplicates_witness :
    pmValidateResult 5 15
      ⟨c6Base.prd, ⟨c6Base.plan.project_name, c6Base.plan.stack,
        c6Base.plan.files ++ [⟨"app/page.tsx".data, "Main page".data⟩]⟩⟩ = .ok () :=
  pmValidateResult_ignores_duplicates c6Base ⟨"app/page.tsx".data, "Main page".data⟩
    rfl (by decide) (by decide)

/-- Claim C10: a plan accepted by PM validation contains every one of the
six required paths, and on a plan passing the earlier rules whose first
missing required path is `p`, validation rejects naming exactly `p`. -/
theorem pmValidateResult_requires_all (r : PMResult) :
    (pmValidateResult 5 15 r = .ok () →
      ∀ p ∈ pmRequired, memB p (r.plan.files.map (fun f => f.path)) = true) ∧
    (∀ p : List Char,
      r.prd.isEmpty = false → (¬ r.prd.length < 50) →
      r.plan.project_name.isEmpty = false →
      kebabCase r.plan.project_name = true →
      (r.plan.stack.framework.isEmpty || r.plan.stack.language.isEmpty ||
         r.plan.stack.styling.isEmpty) = false →
      (¬ r.plan.files.length < 5) → (¬ 15 < r.plan.files.length) →
      firstMissing (r.plan.files.map (fun f => f.path)) pmRequired = some p →
      pmValidateResult 5 15 r = .error (.missingRequired p)) := by
  constructor
  · intro hok p hp
    obtain ⟨_, _, _, _, _, _, _, hfm, _⟩ := pmValidate_ok_unpack 5 15 r hok
    exact (firstMissing_none_iff _ _).mp hfm p hp
  · intro p h1 h2 h3 h4 h5 h6 h7 hfm
    simp only [pmValidateResult]
    rw [if_neg (by simp [h1]), if_neg h2, if_neg (by simp [h3]),
      if_neg (by simp [h4]), if_neg (by simp [h5]), if_neg h6, if_neg h7, hfm]

/-- An otherwise-valid five-file plan missing `.gitignore`. -/
def c10Missing : PMResult :=
  ⟨demoPrd,
    ⟨"demo-site".data,
      ⟨"Next.js 14".data, "TypeScript".data, "Tailwind CSS".data⟩,
      [⟨"package.json".data, "Dependencies".data⟩,
       ⟨"tsconfig.json".data, "TypeScript config".data⟩,
       ⟨"app/page.tsx".data, "Main page".data⟩,
       ⟨"app/layout.tsx".data, "Root layout".data⟩,
       ⟨"README.md".data, "Documentation".data⟩]⟩⟩

/-- Witness for C10: the plan missing only `.gitignore` is rejected
naming `.gitignore`. -/
theorem pmValidateResult_requires_all_witness :
    pmValidateResult 5 15 c10Missing = .error (.missingRequired ".gitignore".data) :=
  (pmValidateResult_requires_all c10Missing).2 ".gitignore".data
    rfl (by decide) rfl rfl rfl (by decide) (by decide) rfl

/-! ### AutoFixer (`DevAgent.autoFixCommonIssues`) -/

/-- A JavaScript line terminator, after which a multiline `^` matches. -/
def isLineBreak (c : Char) : Bool :=
  c = '\n' || c = '\r' || c.toNat == 0x2028 || c.toNat == 0x2029

/-- Match of `\s*module\.exports\s*=\s*nextConfig` at the head of the
input.  Each `\s*` is followed by a non-whitespace literal, so the greedy
run is the only possible match. -/
def expAt (s : List Char) : Bool :=
  let s1 := s.dropWhile isJsWsChar
  startsWithL "module.exports".data s1 &&
    (match (s1.drop 14).dropWhile isJsWsChar with
     | '=' :: r => startsWithL "nextConfig".data (r.dropWhile isJsWsChar)
     | _ => false)

/-- The suffixes of the input that begin just after a line terminator —
the non-initial positions where a multiline `^` matches. -/
def lineTails : List Char → List (List Char)
  | [] => []
  | c :: t => if isLineBreak c then t :: lineTails t else lineTails t

/-- The test `/^\s*module\.exports\s*=\s*nextConfig/m.test(content)`
(DevAgent.ts:747): a match at the start of the string or after any line
terminator. -/
def hasExport (s : List Char) : Bool :=
  expAt s || (lineTails s).any expAt

/-- The statement appended by the fix (DevAgent.ts:751). -/
def exportStmt : List Char := "\n\nmodule.exports = nextConfig\n".data

/-- The export-completeness fix for `next.config.js`
(DevAgent.ts:742-757): append the canonical export statement to the
trimmed content when the anchored pattern is absent. -/
def exportFix (c : List Char) : List Char :=
  if hasExport c then c else jsTrim c ++ exportStmt

theorem mem_lineTails_append (ys : List Char) :
    ∀ xs : List Char, ys ∈ lineTails (xs ++ '\n' :: ys) := by
  intro xs
  induction xs with
  | nil =>
    simp only [List.nil_append, lineTails]
    rw [if_pos (by decide)]
    exact List.mem_cons_self _ _
  | cons c t ih =>
    simp only [List.cons_append, lineTails]
    by_cases h : isLineBreak c = true
    · rw [if_pos h]; exact List.mem_cons_of_mem _ ih
    · rw [if_neg h]; exact ih

theorem hasExport_after_fix (t : List Char) : hasExport (t ++ exportStmt) = true := by
  have hsplit : t ++ exportStmt =
      t ++ '\n' :: ('\n' :: "module.exports = nextConfig\n".data) := by
    simp [exportStmt]
  have hmem : '\n' :: "module.exports = nextConfig\n".data
      ∈ lineTails (t ++ exportStmt) := by
    rw [hsplit]
    exact mem_lineTails_append _ t
  have hexp : expAt ('\n' :: "module.exports = nextConfig\n".data) = true := by decide
  unfold hasExport
  rw [Bool.or_eq_true]
  exact Or.inr (List.any_eq_true.mpr ⟨_, hmem, hexp⟩)

/-- Claim C8: the export-completeness fix is idempotent — after one
application the appended statement itself matches the anchored line-start
pattern, so a second application changes nothing. -/
theorem exportFix_idempotent (c : List Char) : exportFix (exportFix c) = exportFix c := by
  unfold exportFix
  by_cases h : hasExport c = true
  · rw [if_pos h, if_pos h]
  · rw [if_neg h, if_pos (hasExport_after_fix (jsTrim c))]

/-- A single or double quote, the `['"]` class of the import patterns. -/
def quoteChar (c : Char) : Bool := c.toNat == 34 || c.toNat == 39

/-- Match at the head of the input of one alternative of the usage regex
`/from\s+['"]LIB['"]|require\(['"]LIB['"]\)/` (DevAgent.ts:762-773). -/
def usesLibAt (lib : List Char) (s : List Char) : Bool :=
  (startsWithL "from".data s &&
    (let r := s.drop 4
     let ws := r.takeWhile isJsWsChar
     decide (0 < ws.length) &&
      (match r.drop ws.length with
       | q :: r2 =>
         quoteChar q && startsWithL lib r2 &&
          (match r2.drop lib.length with
           | q2 :: _ => quoteChar q2
           | [] => false)
       | [] => false))) ||
  (startsWithL "require(".data s &&
    (match s.drop 8 with
     | q :: r2 =>
       quoteChar q && startsWithL lib r2 &&
        (match r2.drop lib.length with
         | q2 :: ')' :: _ => quoteChar q2
         | _ => false)
     | [] => false))

/-- `content.match(...)` truthiness: a match at some position. -/
def usesLib (lib : List Char) : List Char → Bool
  | [] => false
  | s@(_ :: t) => usesLibAt lib s || usesLib lib t

/-- The known optional libraries, in the order the source tests them. -/
def libNames : List (List Char) :=
  ["tailwind-merge".data, "clsx".data, "class-variance-authority".data]

/-- `libraryVersions[lib] || 'latest'` (DevAgent.ts:790-794). -/
def libVersion (lib : List Char) : List Char :=
  if lib == "tailwind-merge".data then "^2.5.4".data
  else if lib == "clsx".data then "^2.1.1".data
  else if lib == "class-variance-authority".data then "^0.7.0".data
  else "latest".data

/-- A source-like path: `path.endsWith('.tsx') || path.endsWith('.ts')`. -/
def tsLike (p : List Char) : Bool :=
  endsWithL ".tsx".data p || endsWithL ".ts".data p

/-- The `usedLibraries` set collected by the per-file scan
(DevAgent.ts:738-775): files in order, the three libraries in test order,
insertion-ordered and deduplicated as a JavaScript `Set`. -/
def collectLibs (files : List GeneratedFile) : List (List Char) :=
  files.foldl
    (fun acc f =>
      if tsLike f.path then
        libNames.foldl
          (fun acc2 lib =>
            if usesLib lib f.content && !(memB lib acc2) then acc2 ++ [lib]
            else acc2)
          acc
      else acc)
    []

/-- Property assignment `j[k] = v` on a parsed value: `none` models the
strict-mode `TypeError` thrown by assignment to a primitive.  Assigning a
named property to a parsed array succeeds in JavaScript but the property
is invisible to `JSON.stringify`, so it is a no-op here. -/
def jsonSetField (j : Json) (k : List Char) (v : Json) : Option Json :=
  match j with
  | .obj fs => some (.obj (setAssoc fs k v))
  | .arr xs => some (.arr xs)
  | _ => none

/-- The `for (const lib of usedLibraries)` loop of the dependency fix
(DevAgent.ts:796-807) over the parsed `package.json`: for each missing
library, ensure a `dependencies` object and insert the pinned version.
`none` models a thrown `TypeError`, which aborts the whole fix before the
content is written back. -/
def addLibs : Json → Bool → List (List Char) → Option (Json × Bool)
  | pj, m, [] => some (pj, m)
  | pj, m, lib :: rest =>
    if !(optTruthy (jsGet pj depsKey)) ||
       !(optTruthy ((jsGet pj depsKey).bind (jsGet · lib))) then
      match (if !(optTruthy (jsGet pj depsKey))
             then jsonSetField pj depsKey (.obj [])
             else some pj) with
      | none => none
      | some pj1 =>
        match jsGet pj1 depsKey with
        | none => none
        | some deps =>
          match jsonSetField deps lib (.str (libVersion lib)) with
          | none => none
          | some deps1 =>
            match jsonSetField pj1 depsKey deps1 with
            | none => none
            | some pj2 => addLibs pj2 true rest
    else addLibs pj m rest

/-- Hexadecimal digit character for `\u00XX` escapes. -/
def hexDigit (n : Nat) : Char :=
  if n < 10 then Char.ofNat (48 + n) else Char.ofNat (87 + n)

/-- `JSON.stringify` escaping of one string character. -/
def escJsonStrChar (c : Char) : List Char :=
  if c = '"' then ['\\', '"']
  else if c = '\\' then ['\\', '\\']
  else if c = '\n' then ['\\', 'n']
  else if c = '\r' then ['\\', 'r']
  else if c = '\t' then ['\\', 't']
  else if c = '\x08' then ['\\', 'b']
  else if c = '\x0c' then ['\\', 'f']
  else if c.toNat < 32 then
    ['\\', 'u', '0', '0', hexDigit (c.toNat / 16), hexDigit (c.toNat % 16)]
  else [c]

/-- A `JSON.stringify` string literal. -/
def quoteStr (s : List Char) : List Char :=
  '"' :: ((s.map escJsonStrChar).flatten ++ ['"'])

/-- `indent` spaces. -/
def indentN (n : Nat) : List Char := List.replicate n ' '

/-- Join pre-rendered items with `,\n` separators. -/
def joinItems : List (List Char) → List Char
  | [] => []
  | [x] => x
  | x :: t => x ++ ',' :: '\n' :: joinItems t

mutual
/-- `JSON.stringify(value, null, 2)` at nesting level `ind`, fuel-bounded
(`sizeOf` of the value bounds the recursion depth). -/
def strfy : Nat → Nat → Json → List Char
  | 0, _, _ => []
  | _ + 1, _, .null => "null".data
  | _ + 1, _, .bool true => "true".data
  | _ + 1, _, .bool false => "false".data
  | _ + 1, _, .num lex => lex
  | _ + 1, _, .str s => quoteStr s
  | _ + 1, _, .arr [] => "[]".data
  | n + 1, ind, .arr (x :: xs) =>
    '[' :: '\n' :: (joinItems (strfyArr n (ind + 2) (x :: xs)) ++
      '\n' :: (indentN ind ++ [']']))
  | _ + 1, _, .obj [] => "\x7b\x7d".data
  | n + 1, ind, .obj (kv :: kvs) =>
    '\x7b' :: '\n' :: (joinItems (strfyObj n (ind + 2) (kv :: kvs)) ++
      '\n' :: (indentN ind ++ ['\x7d']))

/-- Rendered array items at level `ind`. -/
def strfyArr : Nat → Nat → List Json → List (List Char)
  | 0, _, _ => []
  | _ + 1, _, [] => []
  | n + 1, ind, x :: t => (indentN ind ++ strfy n ind x) :: strfyArr n ind t

/-- Rendered object members at level `ind`. -/
def strfyObj : Nat → Nat → List (List Char × Json) → List (List Char)
  | 0, _, _ => []
  | _ + 1, _, [] => []
  | n + 1, ind, (k, v) :: t =>
    (indentN ind ++ (quoteStr k ++ ':' :: ' ' :: strfy n ind v)) :: strfyObj n ind t
end

mutual
/-- Executable size of a `Json` value, bounding the stringify recursion. -/
def jsonFuel : Json → Nat
  | .null => 1
  | .bool _ => 1
  | .num _ => 1
  | .str _ => 1
  | .arr xs => jsonFuelArr xs + 1
  | .obj fs => jsonFuelObj fs + 1

/-- Size of a list of array elements. -/
def jsonFuelArr : List Json → Nat
  | [] => 1
  | x :: t => jsonFuel x + jsonFuelArr t + 1

/-- Size of a list of object members. -/
def jsonFuelObj : List (List Char × Json) → Nat
  | [] => 1
  | (_, v) :: t => jsonFuel v + jsonFuelObj t + 1
end

/-- `JSON.stringify(packageJson, null, 2)` (DevAgent.ts:810). -/
def stringify2 (j : Json) : List Char := strfy (jsonFuel j + 1) 0 j

/-- The `next.config.js` path. -/
def nextConfigPath : List Char := "next.config.js".data

/-- The per-file pass of `autoFixCommonIssues`: the export fix on every
`next.config.js` entry; other entries unchanged. -/
def fixNextConfigEntry (f : GeneratedFile) : GeneratedFile :=
  if f.path == nextConfigPath then ⟨f.path, exportFix f.content⟩ else f

/-- The dependency fix applied to the found `package.json` entry
(DevAgent.ts:781-821): a `JSON.parse` failure, a thrown `TypeError`, or
an unmodified object leaves the content untouched; otherwise the content
becomes the re-stringified object. -/
def fixPkgEntry (libs : List (List Char)) (f : GeneratedFile) : GeneratedFile :=
  match jsonParse f.content with
  | none => f
  | some pj =>
    match addLibs pj false libs with
    | some (pj2, true) => ⟨f.path, stringify2 pj2⟩
    | _ => f

/-- `files.find(f => f.path === 'package.json')` + in-place mutation: the
first `package.json` entry is replaced, later entries untouched. -/
def addDepsFirstPkg (libs : List (List Char)) : List GeneratedFile → List GeneratedFile
  | [] => []
  | f :: t =>
    if f.path == pkgPath then fixPkgEntry libs f :: t
    else f :: addDepsFirstPkg libs t

/-- `DevAgent.autoFixCommonIssues` (DevAgent.ts:734-827): the per-file
export-fix/scan pass, then — when any library usage was detected — the
dependency fix on the first `package.json` entry.  The scan reads the
contents after the export fix, which only touches `next.config.js`
entries (never `.ts`/`.tsx`), so the detected set is the same either
way. -/
def autoFixCommonIssues (files : List GeneratedFile) : List GeneratedFile :=
  let files1 := files.map fixNextConfigEntry
  let libs := collectLibs files1
  if libs.isEmpty then files1 else addDepsFirstPkg libs files1

/-- Default entry for out-of-range reads. -/
def dFile : GeneratedFile := ⟨[], []⟩

theorem addDepsFirstPkg_length (libs : List (List Char)) :
    ∀ l : List GeneratedFile, (addDepsFirstPkg libs l).length = l.length := by
  intro l
  induction l with
  | nil => rfl
  | cons f t ih =>
    simp only [addDepsFirstPkg]
    by_cases h : (f.path == pkgPath) = true
    · rw [if_pos h]; simp
    · rw [if_neg h]; simp [ih]

theorem getD_map_fixNCE : ∀ (l : List GeneratedFile) (i : Nat),
    (l.map fixNextConfigEntry).getD i dFile = fixNextConfigEntry (l.getD i dFile) := by
  intro l
  induction l with
  | nil => intro i; cases i <;> rfl
  | cons f t ih =>
    intro i
    cases i with
    | zero => rfl
    | succ j => exact ih j

theorem addDepsFirstPkg_getD_of_ne (libs : List (List Char)) :
    ∀ (l : List GeneratedFile) (i : Nat),
      (l.getD i dFile).path ≠ pkgPath →
      (addDepsFirstPkg libs l).getD i dFile = l.getD i dFile := by
  intro l
  induction l with
  | nil => intro i _; rfl
  | cons f t ih =>
    intro i hne
    simp only [addDepsFirstPkg]
    by_cases h : (f.path == pkgPath) = true
    · rw [if_pos h]
      cases i with
      | zero => exact absurd (by simpa using h) hne
      | succ j => rfl
    · rw [if_neg h]
      cases i with
      | zero => rfl
      | succ j => exact ih j hne

theorem addDepsFirstPkg_getD_of_unparseable (libs : List (List Char)) :
    ∀ (l : List GeneratedFile) (i : Nat),
      (l.getD i dFile).path = pkgPath →
      jsonParse (l.getD i dFile).content = none →
      (addDepsFirstPkg libs l).getD i dFile = l.getD i dFile := by
  intro l
  induction l with
  | nil => intro i _ _; rfl
  | cons f t ih =>
    intro i hpath hparse
    simp only [addDepsFirstPkg]
    by_cases h : (f.path == pkgPath) = true
    · rw [if_pos h]
      cases i with
      | zero =>
        show fixPkgEntry libs f = f
        unfold fixPkgEntry
        rw [show jsonParse f.content = none from hparse]
      | succ j => rfl
    · rw [if_neg h]
      cases i with
      | zero => rfl
      | succ j => exact ih j hpath hparse

/-- Claim C7 (amended): `autoFixCommonIssues` is a total function (it
never raises), never removes a file, leaves every entry whose path is
neither `next.config.js` nor `package.json` byte-identical, and leaves a
`package.json` entry with unparseable content unmodified; it can however
shorten `next.config.js` by trimming its surrounding whitespace before
appending the export statement (see the counterexample), and it
reformats `package.json` when it adds a dependency. -/
theorem autoFixCommonIssues_frame (files : List GeneratedFile) :
    (autoFixCommonIssues files).length = files.length ∧
    (∀ i : Nat, (files.getD i dFile).path ≠ nextConfigPath →
      (files.getD i dFile).path ≠ pkgPath →
      (autoFixCommonIssues files).getD i dFile = files.getD i dFile) ∧
    (∀ i : Nat, (files.getD i dFile).path = pkgPath →
      jsonParse (files.getD i dFile).content = none →
      (autoFixCommonIssues files).getD i dFile = files.getD i dFile) := by
  have hmap : ∀ i : Nat, (files.getD i dFile).path ≠ nextConfigPath →
      (files.map fixNextConfigEntry).getD i dFile = files.getD i dFile := by
    intro i h
    rw [getD_map_fixNCE]
    unfold fixNextConfigEntry
    rw [if_neg (by simp only [beq_iff_eq]; exact h)]
  simp only [autoFixCommonIssues]
  by_cases hl : (collectLibs (files.map fixNextConfigEntry)).isEmpty = true
  · rw [if_pos hl]
    refine ⟨by simp, ?_, ?_⟩
    · intro i h1 _; exact hmap i h1
    · intro i h1 _
      exact hmap i (by rw [h1]; decide)
  · rw [if_neg hl]
    refine ⟨by rw [addDepsFirstPkg_length]; simp, ?_, ?_⟩
    · intro i h1 h2
      have hm := hmap i h1
      rw [addDepsFirstPkg_getD_of_ne _ _ i (by rw [hm]; exact h2), hm]
    · intro i h1 h2
      have hm := hmap i (by rw [h1]; decide)
      rw [addDepsFirstPkg_getD_of_unparseable _ _ i (by rw [hm]; exact h1)
        (by rw [hm]; exact h2), hm]

/-- A `next.config.js` whose content carries 40 trailing spaces and no
export statement. -/
def c7Content : List Char := "const nextConfig = \x7b\x7d".data ++ List.replicate 40 ' '

/-- Claim C7 counterexample: the export fix trims the content before
appending, so this `next.config.js` gets strictly shorter — the fixer
does remove (whitespace) content. -/
theorem autoFixCommonIssues_shortens :
    ((autoFixCommonIssues [⟨nextConfigPath, c7Content⟩]).getD 0 dFile).content.length
      < c7Content.length := by decide

/-- Witness for the amended C7 theorem: a non-special entry and an
unparseable `package.json` entry both survive byte-identical. -/
theorem autoFixCommonIssues_frame_witness :
    (autoFixCommonIssues [⟨"a.txt".data, "hello".data⟩, ⟨pkgPath, "not json".data⟩]).getD 0 dFile
        = ([⟨"a.txt".data, "hello".data⟩, ⟨pkgPath, "not json".data⟩] : List GeneratedFile).getD 0 dFile ∧
      (autoFixCommonIssues [⟨"a.txt".data, "hello".data⟩, ⟨pkgPath, "not json".data⟩]).getD 1 dFile
        = ([⟨"a.txt".data, "hello".data⟩, ⟨pkgPath, "not json".data⟩] : List GeneratedFile).getD 1 dFile :=
  ⟨(autoFixCommonIssues_frame _).2.1 0 (by decide) (by decide),
   (autoFixCommonIssues_frame _).2.2 1 (by decide) rfl⟩
